import Mathlib

/-!
Verification development for the hilan-ai-agent ingestion pipeline.

The development shallowly embeds the core pipeline code:

* `parse_kol_zchut.py`: token-budgeted text chunking (`split_text_into_chunks`,
  `count_tokens`).  Text is modelled as `List Char`; the external byte-pair
  tokenizer (`tiktoken`, an external library) is modelled as an abstract
  function `tok : List Char → Nat`.
* `loader.py`: the Supabase ingestion pipeline (`get_embedding`,
  `process_document`, `get_unprocessed_files`, `process_files_parallel`).
  External calls are modelled by passing their outcome (`Except`) as input.
* `document.py`: the pydantic `Document` model with structured JSON
  persistence (`save`/`load`) and the lossy markdown rendering
  (`to_markdown`).
-/

set_option maxHeartbeats 1600000

namespace Hilan

/-! ## Basic character/string utilities (Python str semantics on List Char) -/

/-- Python whitespace characters (the set recognised by str.split() and
str.strip()). -/
def isWS (c : Char) : Bool :=
  c == ' ' || c == '\t' || c == '\n' || c == '\r' || c == '\x0b' || c == '\x0c'

/-- Negation of `isWS`, used as the word predicate. -/
def notWS (c : Char) : Bool := !(isWS c)

/-- Python text.replace('\n', ' '). -/
def replaceNl (l : List Char) : List Char :=
  l.map (fun c => if c = '\n' then ' ' else c)

/-- Python str.strip(): drop leading and trailing whitespace. -/
def strip (l : List Char) : List Char :=
  (((l.dropWhile isWS).reverse).dropWhile isWS).reverse

/-- Python str.split() with no argument: split on whitespace runs, dropping
empty fragments. -/
def wsplit (l : List Char) : List (List Char) :=
  match l with
  | [] => []
  | c :: rest =>
    if isWS c then wsplit rest
    else (c :: rest.takeWhile notWS) :: wsplit (rest.dropWhile notWS)
termination_by l.length
decreasing_by
  · simp only [List.length_cons]; omega
  · simp only [List.length_cons]
    have h : (rest.dropWhile notWS).length ≤ rest.length :=
      List.Sublist.length_le (List.dropWhile_sublist _)
    omega

/-- Python text.split('. '): split on the literal two-character sentence
delimiter, left to right, keeping empty fragments. -/
def splitDotSpace : List Char → List (List Char)
  | [] => [[]]
  | '.' :: ' ' :: rest => [] :: splitDotSpace rest
  | c :: rest =>
    ((c :: (splitDotSpace rest).headD []) :: (splitDotSpace rest).tail)

/-- Python ' '.join(parts). -/
def joinSpace : List (List Char) → List Char
  | [] => []
  | [s] => s
  | s :: rest => s ++ ' ' :: joinSpace rest

/-! ## The chunker (`split_text_into_chunks` from `parse_kol_zchut.py`)

`tok` abstracts `count_tokens` (tiktoken cl100k_base token counting, an
external library call).  The loops mirror the Python source; each emitted
chunk is tagged with `true` exactly when it was produced by the word-level
fallback for an oversized sentence. -/

/-- Inner word-level fallback loop of `split_text_into_chunks` (lines 67-84 of
`parse_kol_zchut.py`): greedily accumulate words of an oversized sentence,
flushing when the running token count would exceed the budget. -/
def wordLoop (tok : List Char → Nat) (B : Nat) :
    List (List Char) → List (List Char) → Nat → List (List Char)
  | [], wc, _ => if wc = [] then [] else [joinSpace wc]
  | w :: rest, wc, wct =>
    if B < wct + tok (w ++ [' ']) then
      (if wc = [] then [] else [joinSpace wc]) ++ wordLoop tok B rest [w] (tok (w ++ [' ']))
    else
      wordLoop tok B rest (wc ++ [w]) (wct + tok (w ++ [' ']))

/-- Main sentence loop of `split_text_into_chunks` (lines 50-98 of
`parse_kol_zchut.py`).  State: the list of pending sentence strings
(`current_chunk`) and their summed token count (`current_tokens`).  Emitted
chunks are tagged with `true` when produced by the word-level fallback. -/
def chunkLoop (tok : List Char → Nat) (B : Nat) :
    List (List Char) → List (List Char) → Nat → List (List Char × Bool)
  | [], current, _ =>
    if current = [] then [] else [(joinSpace current, false)]
  | s :: rest, current, curTok =>
    if strip s = [] then chunkLoop tok B rest current curTok
    else
      if B < tok (strip s ++ ['.']) then
        (if current = [] then [] else [(joinSpace current, false)])
          ++ (wordLoop tok B (wsplit (strip s ++ ['.'])) [] 0).map (fun c => (c, true))
          ++ chunkLoop tok B rest [] 0
      else if B < curTok + tok (strip s ++ ['.']) ∧ current ≠ [] then
        (joinSpace current, false) :: chunkLoop tok B rest [strip s ++ ['.']] (tok (strip s ++ ['.']))
      else
        chunkLoop tok B rest (current ++ [strip s ++ ['.']]) (curTok + tok (strip s ++ ['.']))

/-- `split_text_into_chunks(text, chunk_size)` with provenance tags:
the second component of each emitted chunk is `true` exactly when the chunk
came from the word-level fallback for an oversized sentence. -/
def splitTextIntoChunksTagged (tok : List Char → Nat) (text : List Char) (B : Nat) :
    List (List Char × Bool) :=
  if text = [] then []
  else chunkLoop tok B (splitDotSpace (replaceNl text)) [] 0

/-- `split_text_into_chunks(text, chunk_size)` from `parse_kol_zchut.py`:
the list of emitted chunks, in order. -/
def splitTextIntoChunks (tok : List Char → Nat) (text : List Char) (B : Nat) :
    List (List Char) :=
  (splitTextIntoChunksTagged tok text B).map Prod.fst

/-! ## `loader.py`: embeddings, retries, dedup -/

namespace Loader

/-- Row/document shape of `ProcessedDocument` in `loader.py` (metadata values
abstracted to strings). -/
structure ProcessedDocument where
  name : String
  chunk_number : Int
  summary : String
  content : String
  metadata : List (String × String)
  embedding : List Rat
  deriving DecidableEq

/-- `get_embedding` from `loader.py` (lines 34-44): the outcome of the
external OpenAI embeddings call is passed in as `response`; on success the
returned vector is passed through, on any exception the function logs and
returns the hard-coded fallback `[0] * 3072`. -/
def get_embedding (response : Except String (List Rat)) : List Rat :=
  match response with
  | .ok v => v
  | .error _ => List.replicate 3072 0

/-- Modelled from the spec: the dimensionality of the configured embedding
model, an external fact about the OpenAI embedding service (3072 for the
large model, 1536 for the small one).  The service itself is not part of the
repository source. -/
def modelDimensions (model : String) : Nat :=
  if model = "text-embedding-3-large" then 3072 else 1536

/-- Default value of the EMBEDDING_MODEL environment variable in `loader.py`
(line 23). -/
def defaultEmbeddingModel : String := "text-embedding-3-small"

/-- Retry loop of `process_document` (lines 46-88 of `loader.py`).
`attempts i` is the outcome of the i-th per-attempt body (read file, parse
JSON, embed, build the record).  Mirrors
`for attempt in range(max_retries): try ... except: if attempt ==
max_retries - 1: raise`.  The result is `none` when the loop body never runs
(max_retries = 0, Python falls through returning None). -/
def retryLoop (attempts : Nat → Except String ProcessedDocument) (maxRetries : Nat) :
    Nat → Nat → Option (Except String ProcessedDocument)
  | _, 0 => none
  | i, fuel + 1 =>
    match attempts i with
    | .ok d => some (.ok d)
    | .error e =>
      if i = maxRetries - 1 then some (.error e)
      else retryLoop attempts maxRetries (i + 1) fuel

/-- `process_document(file_path, max_retries)` from `loader.py`, as a function
of the per-attempt outcomes. -/
def process_document (attempts : Nat → Except String ProcessedDocument)
    (maxRetries : Nat := 3) : Option (Except String ProcessedDocument) :=
  retryLoop attempts maxRetries 0 maxRetries

/-- Number of store inserts performed for one item by the inner
`process_file` closure of `process_files_parallel` (lines 150-157 of
`loader.py`): `insert_document` is reached exactly when `process_document`
returned normally; any exception is caught and logged. -/
def storeInsertsForItem (attempts : Nat → Except String ProcessedDocument)
    (maxRetries : Nat := 3) : Nat :=
  match process_document attempts maxRetries with
  | some (.ok _) => 1
  | _ => 0

/-- `get_unprocessed_files(files)` from `loader.py` (lines 123-144).  Files
are identified by their string form; `response` is the outcome of the
Supabase select of all known names.  On success, keep exactly the files whose
identity is not among the known names; on any exception, return all files
(fail-open). -/
def get_unprocessed_files (files : List String) (response : Except String (List String)) :
    List String :=
  match response with
  | .ok names => files.filter (fun f => !(names.contains f))
  | .error _ => files

end Loader

/-- Concrete tokenizer used for witnesses: count of non-whitespace
characters.  It satisfies the space-join subadditivity assumed of the
byte-pair tokenizer. -/
def countNonWS (s : List Char) : Nat := (s.filter notWS).length

/-! ## Claim C3: the chunks reconstruct the text content

Normal form: the whitespace-separated words of the text (after the newline
normalisation the chunker itself performs), each with its trailing
sentence-delimiter periods removed, empty residues dropped.  The chunker
preserves this word sequence exactly. -/

/-- Trailing sentence-delimiter periods of a word, dropped. -/
def stripDots (w : List Char) : List Char :=
  (w.reverse.dropWhile (fun c => c == '.')).reverse

/-- Word-list normal form: strip trailing periods of each word, drop words
that were nothing but periods. -/
def fms (ws : List (List Char)) : List (List Char) :=
  (ws.map stripDots).filter (fun w => !w.isEmpty)

/-- Word normal form of a raw string. -/
def normCore (s : List Char) : List (List Char) := fms (wsplit s)

/-- Word-level content of a text: newline normalisation (as performed by the
chunker), whitespace split, trailing-period stripping. -/
def normWords (s : List Char) : List (List Char) := normCore (replaceNl s)

/-- Interleaves the ". " delimiter back between pieces; inverse of
`splitDotSpace`. -/
def joinDotSpace : List (List Char) → List Char
  | [] => []
  | [p] => p
  | p :: rest => p ++ '.' :: ' ' :: joinDotSpace rest

/-- Words contributed by each raw sentence piece after the per-sentence
preprocessing (strip, drop empties, re-append the period) of the chunk
loop. -/
def pieceWords (pieces : List (List Char)) : List (List Char) :=
  (pieces.map (fun p => if strip p = [] then [] else wsplit (strip p ++ ['.']))).flatten

/-! ## `document.py`: the Document model, JSON persistence, markdown rendering

Floats are modelled as `Rat` (every binary64 float is an exact rational, and
the serializer/parser round-trips the exact value).  The JSON text layer is
modelled by a JSON value tree; a malformed file is a JSON value that fails
validation. -/

/-- JSON values, the on-disk structured representation written by
`model_dump_json` and read by `model_validate_json`. -/
inductive Json where
  | str (s : String)
  | num (q : Rat)
  | int (n : Int)
  | null
  | arr (xs : List Json)
  | obj (fields : List (String × Json))

/-- The pydantic `Document` model of `document.py` (lines 7-15). -/
structure Document where
  file_name : String
  page : Int
  title : Option String
  summary : Option String
  content : Option String
  url : Option String
  metadata : Option (List (String × String))
  embedding : Option (List Rat)
  deriving DecidableEq

/-- Serialization of an optional string field. -/
def encOptStr : Option String → Json
  | none => .null
  | some s => .str s

/-- `model_dump_json`: serialize a Document to its JSON value. -/
def docToJson (d : Document) : Json :=
  .obj [("file_name", .str d.file_name),
        ("page", .int d.page),
        ("title", encOptStr d.title),
        ("summary", encOptStr d.summary),
        ("content", encOptStr d.content),
        ("url", encOptStr d.url),
        ("metadata", match d.metadata with
          | none => .null
          | some m => .obj (m.map (fun kv => (kv.1, Json.str kv.2)))),
        ("embedding", match d.embedding with
          | none => .null
          | some e => .arr (e.map Json.num))]

/-- Validation of an optional string field. -/
def decodeOptStr : Json → Except String (Option String)
  | .null => .ok none
  | .str s => .ok (some s)
  | _ => .error "expected string or null"

/-- Validation of metadata entries. -/
def decodeMetaEntries : List (String × Json) → Except String (List (String × String))
  | [] => .ok []
  | (k, .str v) :: rest =>
    match decodeMetaEntries rest with
    | .ok r => .ok ((k, v) :: r)
    | .error e => .error e
  | _ => .error "expected string metadata value"

/-- Validation of the optional metadata mapping. -/
def decodeMeta : Json → Except String (Option (List (String × String)))
  | .null => .ok none
  | .obj l =>
    match decodeMetaEntries l with
    | .ok r => .ok (some r)
    | .error e => .error e
  | _ => .error "expected object or null"

/-- Validation of a float array. -/
def decodeFloats : List Json → Except String (List Rat)
  | [] => .ok []
  | .num q :: rest =>
    match decodeFloats rest with
    | .ok r => .ok (q :: r)
    | .error e => .error e
  | _ => .error "expected number"

/-- Validation of the optional embedding array. -/
def decodeEmbedding : Json → Except String (Option (List Rat))
  | .null => .ok none
  | .arr xs =>
    match decodeFloats xs with
    | .ok r => .ok (some r)
    | .error e => .error e
  | _ => .error "expected array or null"

/-- `model_validate_json`: parse a JSON value back into a Document, failing
with a validation error on any malformed content. -/
def docFromJson : Json → Except String Document
  | .obj [("file_name", .str fn), ("page", .int pg), ("title", t), ("summary", s),
          ("content", c), ("url", u), ("metadata", m), ("embedding", em)] =>
    match decodeOptStr t, decodeOptStr s, decodeOptStr c, decodeOptStr u,
        decodeMeta m, decodeEmbedding em with
    | .ok t2, .ok s2, .ok c2, .ok u2, .ok m2, .ok e2 =>
      .ok ⟨fn, pg, t2, s2, c2, u2, m2, e2⟩
    | .error e, _, _, _, _, _ => .error e
    | _, .error e, _, _, _, _ => .error e
    | _, _, .error e, _, _, _ => .error e
    | _, _, _, .error e, _, _ => .error e
    | _, _, _, _, .error e, _ => .error e
    | _, _, _, _, _, .error e => .error e
  | _ => .error "malformed document JSON"

/-- The on-disk state: path to JSON content of each written file; writing
prepends and reading takes the most recent entry, modelling overwrite. -/
abbrev FileSystem := List (String × Json)

/-- Path of the structured file written by `Document.save` for document `d`
into directory `output_path` (lines 18-20 of `document.py`):
`{file_name}_{page}.json`. -/
def savePath (d : Document) (output_path : String) : String :=
  output_path ++ "/" ++ d.file_name ++ "_" ++ toString d.page ++ ".json"

/-- `Document.save(output_path)` (lines 17-22 of `document.py`): write the
JSON serialization of the document under `{file_name}_{page}.json`. -/
def Document.save (d : Document) (output_path : String) (fs : FileSystem) : FileSystem :=
  (savePath d output_path, docToJson d) :: fs

/-- Failure modes of `Document.load`: FileNotFoundError when the path does
not exist, a pydantic validation error when the content is malformed. -/
inductive LoadError where
  | fileNotFound (path : String)
  | parseError (msg : String)
  deriving DecidableEq

/-- `Document.load(file_path)` (lines 24-31 of `document.py`). -/
def Document.load (file_path : String) (fs : FileSystem) : Except LoadError Document :=
  match fs.lookup file_path with
  | none => .error (.fileNotFound file_path)
  | some j =>
    match docFromJson j with
    | .ok d => .ok d
    | .error m => .error (.parseError m)

/-! ## `Document.to_markdown` (lines 33-68 of `document.py`) -/

/-- Python str.title() on the characters of a string: the first letter of
each alphabetic run is uppercased, the rest lowercased. -/
def titleGo : Bool → List Char → List Char
  | _, [] => []
  | prevAlpha, c :: rest =>
    (if c.isAlpha then (if prevAlpha then c.toLower else c.toUpper) else c)
      :: titleGo c.isAlpha rest

/-- Header of a rendered field: field.replace('_', ' ').title(). -/
def fieldHeader (name : String) : String :=
  String.mk (titleGo false (name.toList.map (fun c => if c = '_' then ' ' else c)))

/-- One rendered markdown part: "# {header}\n" followed by
"{formatted_value}\n\n". -/
def mdSection (header body : String) : String :=
  "# " ++ header ++ "\n" ++ body ++ "\n\n"

/-- Rendering of an optional string field: None is skipped entirely. -/
def optSection (name : String) (v : Option String) : String :=
  match v with
  | none => ""
  | some s => mdSection (fieldHeader name) s

/-- Rendering of the metadata mapping: skipped when None or empty, otherwise
one "- k: v" bullet line per entry. -/
def metadataSection (m : Option (List (String × String))) : String :=
  match m with
  | none => ""
  | some [] => ""
  | some entries =>
    mdSection (fieldHeader "metadata")
      (String.intercalate "\n" (entries.map (fun kv => "- " ++ kv.1 ++ ": " ++ kv.2)))

/-- Rendering of the embedding: skipped when None or empty; a non-empty
all-float list renders as the dimension banner, never the values. -/
def embeddingSection (em : Option (List Rat)) : String :=
  match em with
  | none => ""
  | some [] => ""
  | some e => mdSection (fieldHeader "embedding") ("Vector with " ++ toString e.length ++ " dimensions")

/-- `Document.to_markdown` (lines 33-68 of `document.py`): iterate the model
fields in declaration order, skipping None values and empty collections;
strings and the page number render via str(), the metadata dict as bullet
lines, the embedding as the dimension banner. -/
def Document.to_markdown (d : Document) : String :=
  mdSection (fieldHeader "file_name") d.file_name
    ++ mdSection (fieldHeader "page") (toString d.page)
    ++ optSection "title" d.title
    ++ optSection "summary" d.summary
    ++ optSection "content" d.content
    ++ optSection "url" d.url
    ++ metadataSection d.metadata
    ++ embeddingSection d.embedding

/-! ## Claim theorems for loader.py -/

/-- Claim C2, counterexample: with the code's own default configuration
(EMBEDDING_MODEL unset, hence `text-embedding-3-small`, dimensionality 1536),
a failing embedding call makes `get_embedding` return a vector of length
3072, not the configured model's dimensionality.  The fallback length is
hard-coded as `[0] * 3072` (line 44 of `loader.py`). -/
theorem get_embedding_error_dim_counterexample :
    (Loader.get_embedding (.error "service unavailable")).length = 3072 ∧
    Loader.modelDimensions Loader.defaultEmbeddingModel = 1536 ∧
    (Loader.get_embedding (.error "service unavailable")).length ≠
      Loader.modelDimensions Loader.defaultEmbeddingModel := by
  have hlen : (Loader.get_embedding (.error "service unavailable")).length = 3072 := by
    show (List.replicate 3072 (0 : Rat)).length = 3072
    exact List.length_replicate 3072 0
  have hdim : Loader.modelDimensions Loader.defaultEmbeddingModel = 1536 := by
    simp [Loader.modelDimensions, Loader.defaultEmbeddingModel]
  exact ⟨hlen, hdim, by rw [hlen, hdim]; omega⟩

/-- Claim C2, amended: if the embedding service call raises, the
ingestion-variant `get_embedding` returns, without raising, an all-zero
vector of length exactly 3072 regardless of the configured model (this
equals the configured dimensionality only when the large model is
configured); on success the service's vector is passed through unchanged,
so the persisted embedding length is the service's dimensionality on success
and 3072 on failure. -/
theorem get_embedding_error_returns_zero_3072 :
    (∀ e : String, Loader.get_embedding (.error e) = List.replicate 3072 (0 : Rat)) ∧
    (∀ v : List Rat, Loader.get_embedding (.ok v) = v) := by
  exact ⟨fun _ => rfl, fun _ => rfl⟩

/-- Claim C6: on a successful store query, `get_unprocessed_files` returns
exactly the discovered files whose string identity is not among the store's
known names (order and multiplicity preserved); in particular with store
identities A, B and discovered files A, B, C, exactly C is returned. -/
theorem get_unprocessed_files_dedup :
    (∀ (files names : List String) (f : String),
      f ∈ Loader.get_unprocessed_files files (.ok names) ↔ (f ∈ files ∧ f ∉ names)) ∧
    Loader.get_unprocessed_files ["A", "B", "C"] (.ok ["A", "B"]) = ["C"] := by
  constructor
  · intro files names f
    simp [Loader.get_unprocessed_files, List.mem_filter]
  · rfl

/-- Claim C7: if the store query during dedup raises, `get_unprocessed_files`
returns the full discovered list unchanged (fail-open), not an empty list and
without propagating the exception. -/
theorem get_unprocessed_files_fail_open :
    ∀ (files : List String) (e : String),
      Loader.get_unprocessed_files files (.error e) = files := by
  intro files e
  rfl

/-- Claim C8: with max_retries = 3, an item whose per-attempt processing
fails on the first two attempts and succeeds on the third is returned as a
single ProcessedDocument (no exception escapes) and leads to exactly one
store insert; an item all three of whose attempts fail propagates its
failure (and the orchestrator logs it as a skip, performing no insert). -/
theorem process_document_retry_policy :
    (∀ (attempts : Nat → Except String Loader.ProcessedDocument)
       (d : Loader.ProcessedDocument) (e0 e1 : String),
      attempts 0 = .error e0 → attempts 1 = .error e1 → attempts 2 = .ok d →
        Loader.process_document attempts 3 = some (.ok d) ∧
        Loader.storeInsertsForItem attempts 3 = 1) ∧
    (∀ (attempts : Nat → Except String Loader.ProcessedDocument),
      (∀ i, i < 3 → ∃ e, attempts i = .error e) →
        (∃ e, Loader.process_document attempts 3 = some (.error e)) ∧
        Loader.storeInsertsForItem attempts 3 = 0) := by
  constructor
  · intro attempts d e0 e1 h0 h1 h2
    have hp : Loader.process_document attempts 3 = some (.ok d) := by
      simp [Loader.process_document, Loader.retryLoop, h0, h1, h2]
    exact ⟨hp, by simp [Loader.storeInsertsForItem, hp]⟩
  · intro attempts h
    obtain ⟨e0, h0⟩ := h 0 (by omega)
    obtain ⟨e1, h1⟩ := h 1 (by omega)
    obtain ⟨e2, h2⟩ := h 2 (by omega)
    have hp : Loader.process_document attempts 3 = some (.error e2) := by
      simp [Loader.process_document, Loader.retryLoop, h0, h1, h2]
    exact ⟨⟨e2, hp⟩, by simp [Loader.storeInsertsForItem, hp]⟩

/-- Witness for claim C8 at concrete inputs: an attempt function failing
twice then succeeding, and one that always fails. -/
theorem process_document_retry_policy_witness :
    Loader.process_document
        (fun i => if i < 2 then .error "transient" else
          .ok ⟨"doc.json", 0, "", "text", [], []⟩) 3 =
      some (.ok ⟨"doc.json", 0, "", "text", [], []⟩) ∧
    Loader.storeInsertsForItem
        (fun i => if i < 2 then .error "transient" else
          .ok ⟨"doc.json", 0, "", "text", [], []⟩) 3 = 1 ∧
    Loader.storeInsertsForItem (fun _ => .error "down") 3 = 0 := by
  have h1 := process_document_retry_policy.1
    (fun i => if i < 2 then .error "transient" else
      .ok ⟨"doc.json", 0, "", "text", [], []⟩)
    ⟨"doc.json", 0, "", "text", [], []⟩ "transient" "transient"
    (by norm_num) (by norm_num) (by norm_num)
  have h2 := process_document_retry_policy.2 (fun _ => .error "down")
    (fun i _ => ⟨"down", rfl⟩)
  exact ⟨h1.1, h1.2, h2.2⟩

/-- Decoding inverts encoding on metadata entries. -/
theorem decodeMetaEntries_enc (m : List (String × String)) :
    decodeMetaEntries (m.map (fun kv => (kv.1, Json.str kv.2))) = .ok m := by
  induction m with
  | nil => rfl
  | cons kv rest ih =>
    obtain ⟨k, v⟩ := kv
    simp [decodeMetaEntries, ih]

/-- Decoding inverts encoding on float arrays. -/
theorem decodeFloats_enc (e : List Rat) :
    decodeFloats (e.map Json.num) = .ok e := by
  induction e with
  | nil => rfl
  | cons q rest ih => simp [decodeFloats, ih]

/-- Parsing inverts serialization on every Document. -/
theorem docFromJson_docToJson (d : Document) : docFromJson (docToJson d) = .ok d := by
  obtain ⟨fn, pg, t, s, c, u, m, e⟩ := d
  cases t <;> cases s <;> cases c <;> cases u <;> cases m <;> cases e <;>
    simp [docToJson, docFromJson, decodeOptStr, encOptStr, decodeMeta,
      decodeEmbedding, decodeMetaEntries_enc, decodeFloats_enc]

/-- Claim C4: saving a Document and loading the written
`{file_name}_{page}.json` file yields a Document equal to the original in
every field (embedding values included); loading an absent path fails with a
not-found error; loading a file whose content fails validation fails with a
parse error. -/
theorem document_save_load_roundtrip :
    (∀ (d : Document) (dir : String) (fs : FileSystem),
      Document.load (savePath d dir) (Document.save d dir fs) = .ok d) ∧
    (∀ (p : String) (fs : FileSystem),
      fs.lookup p = none → Document.load p fs = .error (.fileNotFound p)) ∧
    (∀ (p : String) (fs : FileSystem) (j : Json) (msg : String),
      fs.lookup p = some j → docFromJson j = .error msg →
        Document.load p fs = .error (.parseError msg)) := by
  refine ⟨?_, ?_, ?_⟩
  · intro d dir fs
    simp [Document.load, Document.save, List.lookup, docFromJson_docToJson]
  · intro p fs h
    simp [Document.load, h]
  · intro p fs j msg hl hj
    simp [Document.load, hl, hj]

/-- Witness for claim C4 at a concrete document, a missing path, and a
malformed file. -/
theorem document_save_load_roundtrip_witness :
    Document.load
        (savePath ⟨"guide", 2, some "t", none, some "hello", none,
          some [("tokens", "7")], some [(1 : Rat) / 2, 3]⟩ "out")
        (Document.save ⟨"guide", 2, some "t", none, some "hello", none,
          some [("tokens", "7")], some [(1 : Rat) / 2, 3]⟩ "out" []) =
      .ok ⟨"guide", 2, some "t", none, some "hello", none,
        some [("tokens", "7")], some [(1 : Rat) / 2, 3]⟩ ∧
    Document.load "out/missing_1.json" [] =
      .error (.fileNotFound "out/missing_1.json") ∧
    Document.load "out/bad_1.json" [("out/bad_1.json", Json.null)] =
      .error (.parseError "malformed document JSON") := by
  refine ⟨document_save_load_roundtrip.1 _ "out" [],
    document_save_load_roundtrip.2.1 "out/missing_1.json" [] rfl,
    document_save_load_roundtrip.2.2 "out/bad_1.json"
      [("out/bad_1.json", Json.null)] Json.null "malformed document JSON" rfl rfl⟩

/-- Claim C5: `to_markdown` never exposes embedding float values.  For a
document with a non-empty embedding of length N: (1) the rendering is the
rendering of the document without its embedding followed by exactly the
banner section "Vector with N dimensions"; (2) the rendering depends only on
the embedding length, not its values; (3) an empty embedding list is omitted
exactly like a missing one; (4) all optional fields that are None are
omitted entirely, leaving only the file name and page sections; (5) an empty
metadata dict is omitted exactly like a missing one; (6) for every Document,
the rendering is exactly the concatenation of the sections of the populated
fields — every field that is None or an empty list/dict contributes nothing
at all. -/
theorem to_markdown_hides_embedding (d : Document) (e : List Rat)
    (he : d.embedding = some e) (hne : e ≠ []) :
    (d.to_markdown = Document.to_markdown {d with embedding := none}
        ++ (("# Embedding\n" ++ ("Vector with " ++ toString e.length ++ " dimensions")) ++ "\n\n")) ∧
    (∀ e2 : List Rat, e2.length = e.length →
      Document.to_markdown {d with embedding := some e2} = d.to_markdown) ∧
    (Document.to_markdown {d with embedding := some []} =
      Document.to_markdown {d with embedding := none}) ∧
    (∀ (fn : String) (pg : Int),
      Document.to_markdown ⟨fn, pg, none, none, none, none, none, none⟩ =
        (("# File Name\n" ++ fn) ++ "\n\n") ++ (("# Page\n" ++ toString pg) ++ "\n\n")) ∧
    (Document.to_markdown {d with metadata := some []} =
      Document.to_markdown {d with metadata := none}) ∧
    (∀ d2 : Document,
      d2.to_markdown =
        (("# File Name\n" ++ d2.file_name) ++ "\n\n")
        ++ (("# Page\n" ++ toString d2.page) ++ "\n\n")
        ++ (match d2.title with
            | none => ""
            | some v => ("# Title\n" ++ v) ++ "\n\n")
        ++ (match d2.summary with
            | none => ""
            | some v => ("# Summary\n" ++ v) ++ "\n\n")
        ++ (match d2.content with
            | none => ""
            | some v => ("# Content\n" ++ v) ++ "\n\n")
        ++ (match d2.url with
            | none => ""
            | some v => ("# Url\n" ++ v) ++ "\n\n")
        ++ (match d2.metadata with
            | none => ""
            | some [] => ""
            | some entries =>
              ("# Metadata\n"
                ++ String.intercalate "\n"
                  (entries.map (fun kv => "- " ++ kv.1 ++ ": " ++ kv.2))) ++ "\n\n")
        ++ (match d2.embedding with
            | none => ""
            | some [] => ""
            | some e2 =>
              ("# Embedding\n" ++ ("Vector with " ++ toString e2.length ++ " dimensions"))
                ++ "\n\n")) := by
  obtain ⟨fn, pg, t, s, c, u, m, em⟩ := d
  replace he : em = some e := he
  subst he
  cases e with
  | nil => exact absurd rfl hne
  | cons x xs =>
    refine ⟨?_, ?_, ?_, ?_, ?_, ?_⟩
    · simp only [Document.to_markdown, embeddingSection, String.append_empty]
      rfl
    · intro e2 h2
      cases e2 with
      | nil => simp at h2
      | cons y ys =>
        simp only [Document.to_markdown, embeddingSection]
        rw [h2]
    · rfl
    · intro fn2 pg2
      simp only [Document.to_markdown, optSection, metadataSection,
        embeddingSection, String.append_empty]
      rfl
    · cases m with
      | none => rfl
      | some mm => cases mm <;> rfl
    · intro d2
      obtain ⟨fn2, pg2, t2, s2, c2, u2, m2, em2⟩ := d2
      cases t2 <;> cases s2 <;> cases c2 <;> cases u2 <;>
        rcases m2 with _ | (_ | ⟨kv, mm⟩) <;>
        rcases em2 with _ | (_ | ⟨q, ee⟩) <;> rfl

/-- Witness for claim C5 at a concrete document with a two-dimensional
embedding. -/
theorem to_markdown_hides_embedding_witness :
    Document.to_markdown
        ⟨"guide", 2, some "t", none, none, none, none, some [(1 : Rat) / 2, 3]⟩ =
      Document.to_markdown
        ⟨"guide", 2, some "t", none, none, none, none, none⟩
        ++ (("# Embedding\n" ++ ("Vector with " ++ toString (2 : Nat) ++ " dimensions")) ++ "\n\n") := by
  exact (to_markdown_hides_embedding
    ⟨"guide", 2, some "t", none, none, none, none, some [(1 : Rat) / 2, 3]⟩
    [(1 : Rat) / 2, 3] rfl (by simp)).1

/-! ## Claim C1: token bound for non-fallback chunks -/


/-- A space-join of sentences has token count at most the sum of the
sentences' token counts, for any subadditive tokenizer. -/
theorem tok_joinSpace_le (tok : List Char → Nat)
    (hsub : ∀ a b, tok (a ++ ' ' :: b) ≤ tok a + tok b) :
    ∀ (l : List (List Char)), l ≠ [] → tok (joinSpace l) ≤ (l.map tok).sum := by
  intro l
  induction l with
  | nil => intro h; exact absurd rfl h
  | cons s rest ih =>
    intro _
    cases rest with
    | nil => simp [joinSpace]
    | cons x l2 =>
      have h1 : joinSpace (s :: x :: l2) = s ++ ' ' :: joinSpace (x :: l2) := rfl
      have h2 := hsub s (joinSpace (x :: l2))
      have h3 := ih (by simp)
      rw [h1]
      simp only [List.map_cons, List.sum_cons] at h3 ⊢
      omega

/-- Invariant of the sentence loop: when the running token count equals the
sum over the pending sentences and is within budget, every chunk emitted
outside the word-level fallback has token count within budget. -/
theorem chunkLoop_token_bound (tok : List Char → Nat)
    (hsub : ∀ a b, tok (a ++ ' ' :: b) ≤ tok a + tok b) (B : Nat) :
    ∀ (pieces current : List (List Char)) (curTok : Nat),
      curTok = (current.map tok).sum → curTok ≤ B →
      ∀ cb ∈ chunkLoop tok B pieces current curTok, cb.2 = false → tok cb.1 ≤ B := by
  intro pieces
  induction pieces with
  | nil =>
    intro current curTok hsum hle cb hcb hfalse
    by_cases hc : current = []
    · simp [chunkLoop, hc] at hcb
    · rw [chunkLoop, if_neg hc] at hcb
      simp only [List.mem_singleton] at hcb
      subst hcb
      exact le_trans (by rw [hsum] at hle; exact le_trans (tok_joinSpace_le tok hsub current hc) hle) le_rfl
  | cons p rest ih =>
    intro current curTok hsum hle cb hcb hfalse
    by_cases hp : strip p = []
    · rw [chunkLoop, if_pos hp] at hcb
      exact ih current curTok hsum hle cb hcb hfalse
    · by_cases hover : B < tok (strip p ++ ['.'])
      · rw [chunkLoop, if_neg hp, if_pos hover] at hcb
        rcases List.mem_append.1 hcb with h | h
        · rcases List.mem_append.1 h with h2 | h2
          · by_cases hc : current = []
            · simp [hc] at h2
            · rw [if_neg hc] at h2
              simp only [List.mem_singleton] at h2
              subst h2
              rw [hsum] at hle
              exact le_trans (tok_joinSpace_le tok hsub current hc) hle
          · obtain ⟨w, _, hw⟩ := List.mem_map.1 h2
            rw [← hw] at hfalse
            simp at hfalse
        · exact ih [] 0 rfl (Nat.zero_le B) cb h hfalse
      · by_cases hflush : B < curTok + tok (strip p ++ ['.']) ∧ current ≠ []
        · rw [chunkLoop, if_neg hp, if_neg hover, if_pos hflush] at hcb
          rcases List.mem_cons.1 hcb with h | h
          · subst h
            rw [hsum] at hle
            exact le_trans (tok_joinSpace_le tok hsub current hflush.2) hle
          · exact ih [strip p ++ ['.']] (tok (strip p ++ ['.'])) (by simp)
              (by omega) cb h hfalse
        · rw [chunkLoop, if_neg hp, if_neg hover, if_neg hflush] at hcb
          have hnew : curTok + tok (strip p ++ ['.']) ≤ B := by
            by_cases hbc : B < curTok + tok (strip p ++ ['.'])
            · have hc : current = [] := by
                by_contra hne
                exact hflush ⟨hbc, hne⟩
              subst hc
              simp at hsum
              omega
            · omega
          exact ih (current ++ [strip p ++ ['.']]) (curTok + tok (strip p ++ ['.']))
            (by simp [hsum]) hnew cb hcb hfalse

/-- Claim C1: for a subadditive tokenizer (the assumption the byte-pair
tokenizer satisfies on space-joined parts), every chunk emitted by
`split_text_into_chunks` on a non-empty text, except those produced by the
word-level fallback for an oversized sentence, has token count at most the
bound; the plain chunk list is the tag-erased tagged list. -/
theorem split_chunks_token_bound (tok : List Char → Nat)
    (hsub : ∀ a b, tok (a ++ ' ' :: b) ≤ tok a + tok b)
    (text : List Char) (B : Nat) (htext : text ≠ []) :
    (∀ cb ∈ splitTextIntoChunksTagged tok text B, cb.2 = false → tok cb.1 ≤ B) ∧
    splitTextIntoChunks tok text B = (splitTextIntoChunksTagged tok text B).map Prod.fst := by
  refine ⟨?_, rfl⟩
  intro cb hcb hfalse
  rw [splitTextIntoChunksTagged, if_neg htext] at hcb
  exact chunkLoop_token_bound tok hsub B _ [] 0 rfl (Nat.zero_le B) cb hcb hfalse

/-- The character-count tokenizer is subadditive over space-joins. -/
theorem countNonWS_subadd : ∀ a b : List Char, countNonWS (a ++ ' ' :: b) ≤ countNonWS a + countNonWS b := by
  intro a b
  have h : notWS ' ' = false := by decide
  simp [countNonWS, List.filter_append, List.filter_cons, h]

/-- Witness for claim C1: on the text "ab. cd" with bound 5, the sentence
chunk "ab." is emitted outside the fallback and is within budget. -/
theorem split_chunks_token_bound_witness :
    ("ab.".toList, false) ∈ splitTextIntoChunksTagged countNonWS "ab. cd".toList 5 ∧
    countNonWS "ab.".toList ≤ 5 := by
  refine ⟨by decide, ?_⟩
  exact (split_chunks_token_bound countNonWS countNonWS_subadd "ab. cd".toList 5
    (by decide)).1 ("ab.".toList, false) (by decide) rfl

/-! ## Claim C10: every emitted chunk is non-empty -/

/-- Dropping a while-matched run never lengthens a list. -/
theorem lengthDropWhileLe (p : Char → Bool) (l : List Char) :
    (l.dropWhile p).length ≤ l.length := by
  induction l with
  | nil => simp
  | cons c rest ih =>
    by_cases h : p c
    · simp only [List.dropWhile_cons_of_pos h, List.length_cons]
      omega
    · simp [List.dropWhile_cons_of_neg h]

/-- Every word produced by `wsplit` is non-empty and whitespace-free. -/
theorem wsplit_mem : ∀ (n : Nat) (l : List Char), l.length ≤ n →
    ∀ w ∈ wsplit l, w ≠ [] ∧ ∀ c ∈ w, notWS c = true := by
  intro n
  induction n with
  | zero =>
    intro l hl w hw
    rw [List.length_eq_zero.1 (Nat.le_zero.1 hl)] at hw
    simp [wsplit] at hw
  | succ n ih =>
    intro l hl w hw
    match l with
    | [] => simp [wsplit] at hw
    | c :: rest =>
      simp only [wsplit] at hw
      by_cases hc : isWS c
      · rw [if_pos hc] at hw
        simp only [List.length_cons] at hl
        exact ih rest (by omega) w hw
      · rw [if_neg hc] at hw
        rcases List.mem_cons.1 hw with h | h
        · subst h
          refine ⟨by simp, ?_⟩
          intro ch hch
          rcases List.mem_cons.1 hch with h2 | h2
          · subst h2
            simp [notWS, hc]
          · exact List.mem_takeWhile_imp h2
        · simp only [List.length_cons] at hl
          exact ih (rest.dropWhile notWS)
            (le_trans (lengthDropWhileLe notWS rest) (by omega)) w h

/-- A space-join of sentences headed by a non-empty sentence is non-empty. -/
theorem joinSpace_ne_nil : ∀ (s : List Char) (l : List (List Char)),
    s ≠ [] → joinSpace (s :: l) ≠ [] := by
  intro s l hs
  cases l with
  | nil => exact hs
  | cons x t => simp [joinSpace]

/-- Chunks flushed by the word-level loop are non-empty whenever all pending
and remaining words are. -/
theorem wordLoop_nonempty (tok : List Char → Nat) (B : Nat) :
    ∀ (ws wc : List (List Char)) (wct : Nat),
      (∀ w ∈ wc, w ≠ []) → (∀ w ∈ ws, w ≠ []) →
      ∀ c ∈ wordLoop tok B ws wc wct, c ≠ [] := by
  intro ws
  induction ws with
  | nil =>
    intro wc wct hwc _ c hc
    by_cases h : wc = []
    · simp [wordLoop, h] at hc
    · rw [wordLoop, if_neg h] at hc
      simp only [List.mem_singleton] at hc
      subst hc
      cases wc with
      | nil => exact absurd rfl h
      | cons s t => exact joinSpace_ne_nil s t (hwc s (by simp))
  | cons w rest ih =>
    intro wc wct hwc hws c hc
    rw [wordLoop] at hc
    by_cases hov : B < wct + tok (w ++ [' '])
    · rw [if_pos hov] at hc
      rcases List.mem_append.1 hc with h | h
      · by_cases hw : wc = []
        · simp [hw] at h
        · rw [if_neg hw] at h
          simp only [List.mem_singleton] at h
          subst h
          cases wc with
          | nil => exact absurd rfl hw
          | cons s t => exact joinSpace_ne_nil s t (hwc s (by simp))
      · refine ih [w] (tok (w ++ [' '])) ?_ ?_ c h
        · intro x hx
          simp only [List.mem_singleton] at hx
          subst hx
          exact hws x (by simp)
        · intro x hx
          exact hws x (by simp [hx])
    · rw [if_neg hov] at hc
      refine ih (wc ++ [w]) (wct + tok (w ++ [' '])) ?_ ?_ c hc
      · intro x hx
        rcases List.mem_append.1 hx with h | h
        · exact hwc x h
        · simp only [List.mem_singleton] at h
          subst h
          exact hws x (by simp)
      · intro x hx
        exact hws x (by simp [hx])

/-- Every chunk emitted by the sentence loop is non-empty, whenever the
pending sentences are. -/
theorem chunkLoop_nonempty (tok : List Char → Nat) (B : Nat) :
    ∀ (pieces current : List (List Char)) (curTok : Nat),
      (∀ s ∈ current, s ≠ []) →
      ∀ cb ∈ chunkLoop tok B pieces current curTok, cb.1 ≠ [] := by
  intro pieces
  induction pieces with
  | nil =>
    intro current curTok hcur cb hcb
    by_cases hc : current = []
    · simp [chunkLoop, hc] at hcb
    · rw [chunkLoop, if_neg hc] at hcb
      simp only [List.mem_singleton] at hcb
      subst hcb
      cases current with
      | nil => exact absurd rfl hc
      | cons s t => exact joinSpace_ne_nil s t (hcur s (by simp))
  | cons p rest ih =>
    intro current curTok hcur cb hcb
    by_cases hp : strip p = []
    · rw [chunkLoop, if_pos hp] at hcb
      exact ih current curTok hcur cb hcb
    · by_cases hover : B < tok (strip p ++ ['.'])
      · rw [chunkLoop, if_neg hp, if_pos hover] at hcb
        rcases List.mem_append.1 hcb with h | h
        · rcases List.mem_append.1 h with h2 | h2
          · by_cases hc : current = []
            · simp [hc] at h2
            · rw [if_neg hc] at h2
              simp only [List.mem_singleton] at h2
              subst h2
              cases current with
              | nil => exact absurd rfl hc
              | cons s t => exact joinSpace_ne_nil s t (hcur s (by simp))
          · obtain ⟨w, hwmem, hw⟩ := List.mem_map.1 h2
            rw [← hw]
            exact wordLoop_nonempty tok B (wsplit (strip p ++ ['.'])) [] 0
              (by simp) (fun x hx => (wsplit_mem (strip p ++ ['.']).length _ le_rfl x hx).1)
              w hwmem
        · exact ih [] 0 (by simp) cb h
      · by_cases hflush : B < curTok + tok (strip p ++ ['.']) ∧ current ≠ []
        · rw [chunkLoop, if_neg hp, if_neg hover, if_pos hflush] at hcb
          rcases List.mem_cons.1 hcb with h | h
          · subst h
            cases current with
            | nil => exact absurd rfl hflush.2
            | cons s t => exact joinSpace_ne_nil s t (hcur s (by simp))
          · refine ih [strip p ++ ['.']] (tok (strip p ++ ['.'])) ?_ cb h
            intro x hx
            simp only [List.mem_singleton] at hx
            subst hx
            simp
        · rw [chunkLoop, if_neg hp, if_neg hover, if_neg hflush] at hcb
          refine ih (current ++ [strip p ++ ['.']]) (curTok + tok (strip p ++ ['.'])) ?_ cb hcb
          intro x hx
          rcases List.mem_append.1 hx with h | h
          · exact hcur x h
          · simp only [List.mem_singleton] at h
            subst h
            simp

/-- Claim C10: every chunk returned by `split_text_into_chunks` is a
non-empty string (whitespace-only or empty sentence fragments are dropped,
never emitted), and the empty (falsy) input text yields the empty chunk
list. -/
theorem split_chunks_nonempty (tok : List Char → Nat) (text : List Char) (B : Nat) :
    (∀ c ∈ splitTextIntoChunks tok text B, c ≠ []) ∧
    splitTextIntoChunks tok [] B = [] := by
  constructor
  · intro c hc
    by_cases ht : text = []
    · subst ht
      simp [splitTextIntoChunks, splitTextIntoChunksTagged] at hc
    · rw [splitTextIntoChunks, splitTextIntoChunksTagged, if_neg ht] at hc
      obtain ⟨cb, hcb, hfst⟩ := List.mem_map.1 hc
      rw [← hfst]
      exact chunkLoop_nonempty tok B _ [] 0 (by simp) cb hcb
  · rfl

/-- Witness for claim C10: the emitted chunk "ab." on the text "ab. cd" is
non-empty. -/
theorem split_chunks_nonempty_witness :
    "ab.".toList ∈ splitTextIntoChunks countNonWS "ab. cd".toList 5 ∧
    "ab.".toList ≠ [] := by
  exact ⟨by decide,
    (split_chunks_nonempty countNonWS "ab. cd".toList 5).1 "ab.".toList (by decide)⟩


/-- Unfolding equation for `wsplit`. -/
theorem wsplit_cons (c : Char) (l : List Char) :
    wsplit (c :: l) = if isWS c then wsplit l
      else (c :: l.takeWhile notWS) :: wsplit (l.dropWhile notWS) := by
  simp only [wsplit]

/-- `wsplit` ignores a leading whitespace character. -/
theorem wsplit_cons_of_ws {c : Char} (hc : isWS c = true) (l : List Char) :
    wsplit (c :: l) = wsplit l := by
  rw [wsplit_cons, if_pos hc]

/-- `wsplit` takes a maximal word at a leading non-whitespace character. -/
theorem wsplit_cons_of_not {c : Char} (hc : isWS c = false) (l : List Char) :
    wsplit (c :: l) = (c :: l.takeWhile notWS) :: wsplit (l.dropWhile notWS) := by
  rw [wsplit_cons, if_neg (by simp [hc])]

/-- takeWhile stops before an element failing the predicate, wherever it is
appended. -/
theorem takeWhile_append_not (p : Char → Bool) (xs : List Char) (y : Char) (ys : List Char)
    (hy : p y = false) : (xs ++ y :: ys).takeWhile p = xs.takeWhile p := by
  induction xs with
  | nil => simp [List.takeWhile_cons, hy]
  | cons x xs2 ih =>
    by_cases hx : p x
    · simp only [List.cons_append, List.takeWhile_cons_of_pos hx, ih]
    · simp [List.cons_append, List.takeWhile_cons_of_neg hx]

/-- dropWhile stops before an element failing the predicate, wherever it is
appended. -/
theorem dropWhile_append_not (p : Char → Bool) (xs : List Char) (y : Char) (ys : List Char)
    (hy : p y = false) : (xs ++ y :: ys).dropWhile p = xs.dropWhile p ++ y :: ys := by
  induction xs with
  | nil => simp [List.dropWhile_cons, hy]
  | cons x xs2 ih =>
    by_cases hx : p x
    · simp only [List.cons_append, List.dropWhile_cons_of_pos hx, ih]
    · simp [List.cons_append, List.dropWhile_cons_of_neg hx]

/-- Splitting on whitespace distributes over concatenation at a whitespace
character. -/
theorem wsplit_append_ws : ∀ (n : Nat) (a : List Char), a.length ≤ n →
    ∀ (w : Char) (b : List Char), isWS w = true →
    wsplit (a ++ w :: b) = wsplit a ++ wsplit b := by
  intro n
  induction n with
  | zero =>
    intro a ha w b hw
    rw [List.length_eq_zero.1 (Nat.le_zero.1 ha)]
    rw [List.nil_append, wsplit_cons_of_ws hw]
    simp [wsplit]
  | succ n ih =>
    intro a ha w b hw
    cases a with
    | nil =>
      rw [List.nil_append, wsplit_cons_of_ws hw]
      simp [wsplit]
    | cons c a2 =>
      simp only [List.length_cons] at ha
      by_cases hc : isWS c
      · rw [List.cons_append, wsplit_cons_of_ws hc, wsplit_cons_of_ws hc]
        exact ih a2 (by omega) w b hw
      · have hc2 : isWS c = false := by simpa using hc
        have hnw : notWS w = false := by simp [notWS, hw]
        rw [List.cons_append, wsplit_cons_of_not hc2, wsplit_cons_of_not hc2,
          takeWhile_append_not notWS a2 w b hnw, dropWhile_append_not notWS a2 w b hnw,
          ih (a2.dropWhile notWS) (le_trans (lengthDropWhileLe notWS a2) (by omega)) w b hw]
        simp

/-- Splitting on whitespace distributes over a space-join. -/
theorem wsplit_joinSpace : ∀ l : List (List Char),
    wsplit (joinSpace l) = (l.map wsplit).flatten := by
  intro l
  induction l with
  | nil => simp [joinSpace, wsplit]
  | cons s rest ih =>
    cases rest with
    | nil => simp [joinSpace]
    | cons x t =>
      have h1 : joinSpace (s :: x :: t) = s ++ ' ' :: joinSpace (x :: t) := rfl
      rw [h1, wsplit_append_ws s.length s le_rfl ' ' _ (by decide), ih]
      simp

/-- A non-empty whitespace-free word splits into itself. -/
theorem wsplit_single (w : List Char) (hne : w ≠ []) (hall : ∀ c ∈ w, notWS c = true) :
    wsplit w = [w] := by
  cases w with
  | nil => exact absurd rfl hne
  | cons c t =>
    have hc : notWS c = true := hall c (by simp)
    have hc2 : isWS c = false := by
      simp only [notWS, Bool.not_eq_true'] at hc
      exact hc
    rw [wsplit_cons_of_not hc2,
      List.takeWhile_eq_self_iff.2 (fun x hx => hall x (by simp [hx])),
      List.dropWhile_eq_nil_iff.2 (fun x hx => hall x (by simp [hx]))]
    simp [wsplit]

/-- A pure-whitespace string has no words. -/
theorem wsplit_all_ws : ∀ l : List Char, (∀ c ∈ l, isWS c = true) → wsplit l = [] := by
  intro l
  induction l with
  | nil => intro _; simp [wsplit]
  | cons c t ih =>
    intro h
    rw [wsplit_cons_of_ws (h c (by simp))]
    exact ih (fun x hx => h x (by simp [hx]))

/-- Appending trailing whitespace does not change the words. -/
theorem wsplit_append_all_ws : ∀ (n : Nat) (u : List Char), u.length ≤ n →
    ∀ t : List Char, (∀ c ∈ t, isWS c = true) → wsplit (u ++ t) = wsplit u := by
  intro n
  induction n with
  | zero =>
    intro u hu t ht
    rw [List.length_eq_zero.1 (Nat.le_zero.1 hu), List.nil_append, wsplit_all_ws t ht]
    simp [wsplit]
  | succ n ih =>
    intro u hu t ht
    cases u with
    | nil =>
      rw [List.nil_append, wsplit_all_ws t ht]
      simp [wsplit]
    | cons c u2 =>
      simp only [List.length_cons] at hu
      by_cases hc : isWS c
      · rw [List.cons_append, wsplit_cons_of_ws hc, wsplit_cons_of_ws hc]
        exact ih u2 (by omega) t ht
      · have hc2 : isWS c = false := by simpa using hc
        rw [List.cons_append, wsplit_cons_of_not hc2, wsplit_cons_of_not hc2]
        cases t with
        | nil => simp
        | cons y ys =>
          have hy : notWS y = false := by simp [notWS, ht y (by simp)]
          rw [takeWhile_append_not notWS u2 y ys hy, dropWhile_append_not notWS u2 y ys hy,
            ih (u2.dropWhile notWS) (le_trans (lengthDropWhileLe notWS u2) (by omega)) (y :: ys) ht]

/-- Leading whitespace does not change the words. -/
theorem wsplit_dropWhile_ws : ∀ l : List Char, wsplit (l.dropWhile isWS) = wsplit l := by
  intro l
  induction l with
  | nil => rfl
  | cons c t ih =>
    by_cases hc : isWS c
    · rw [List.dropWhile_cons_of_pos hc, ih, wsplit_cons_of_ws hc]
    · rw [List.dropWhile_cons_of_neg hc]

/-- The words of a stripped string are the words of the string. -/
theorem wsplit_strip : ∀ l : List Char, wsplit (strip l) = wsplit l := by
  intro l
  have key : ∀ m : List Char, wsplit ((m.reverse.dropWhile isWS).reverse) = wsplit m := by
    intro m
    have hdec : m = (m.reverse.dropWhile isWS).reverse ++ (m.reverse.takeWhile isWS).reverse := by
      calc m = m.reverse.reverse := (List.reverse_reverse m).symm
        _ = (m.reverse.takeWhile isWS ++ m.reverse.dropWhile isWS).reverse := by
            rw [List.takeWhile_append_dropWhile]
        _ = (m.reverse.dropWhile isWS).reverse ++ (m.reverse.takeWhile isWS).reverse := by
            rw [List.reverse_append]
    conv_rhs => rw [hdec]
    rw [wsplit_append_all_ws (m.reverse.dropWhile isWS).reverse.length _ le_rfl _
      (fun c hc => List.mem_takeWhile_imp (List.mem_reverse.1 hc))]
  rw [strip, key (l.dropWhile isWS), wsplit_dropWhile_ws]

/-- The newline normalisation only renames one separator to another: the
word prefix is unchanged. -/
theorem takeWhile_replaceNl : ∀ l : List Char,
    (replaceNl l).takeWhile notWS = l.takeWhile notWS := by
  intro l
  induction l with
  | nil => rfl
  | cons c t ih =>
    have hrl : replaceNl (c :: t) = (if c = '\n' then ' ' else c) :: replaceNl t := rfl
    by_cases hc : notWS c
    · have hn : ¬ c = '\n' := by
        intro h
        rw [h] at hc
        simp [notWS, isWS] at hc
      rw [hrl, if_neg hn, List.takeWhile_cons_of_pos hc, List.takeWhile_cons_of_pos hc, ih]
    · have hcw : notWS (if c = '\n' then ' ' else c) = false := by
        by_cases hn : c = '\n'
        · rw [if_pos hn]; decide
        · rw [if_neg hn]
          simpa using hc
      rw [hrl, List.takeWhile_cons_of_neg (by simp [hcw]), List.takeWhile_cons_of_neg hc]

/-- The newline normalisation commutes with dropping the word prefix. -/
theorem dropWhile_replaceNl : ∀ l : List Char,
    (replaceNl l).dropWhile notWS = replaceNl (l.dropWhile notWS) := by
  intro l
  induction l with
  | nil => rfl
  | cons c t ih =>
    have hrl : replaceNl (c :: t) = (if c = '\n' then ' ' else c) :: replaceNl t := rfl
    by_cases hc : notWS c
    · have hn : ¬ c = '\n' := by
        intro h
        rw [h] at hc
        simp [notWS, isWS] at hc
      rw [hrl, if_neg hn, List.dropWhile_cons_of_pos hc, List.dropWhile_cons_of_pos hc, ih]
    · have hcw : notWS (if c = '\n' then ' ' else c) = false := by
        by_cases hn : c = '\n'
        · rw [if_pos hn]; decide
        · rw [if_neg hn]
          simpa using hc
      rw [hrl, List.dropWhile_cons_of_neg (by simp [hcw]), List.dropWhile_cons_of_neg hc, hrl]

/-- Replacing newlines by spaces does not change the words. -/
theorem wsplit_replaceNl : ∀ (n : Nat) (l : List Char), l.length ≤ n →
    wsplit (replaceNl l) = wsplit l := by
  intro n
  induction n with
  | zero =>
    intro l hl
    rw [List.length_eq_zero.1 (Nat.le_zero.1 hl)]
    rfl
  | succ n ih =>
    intro l hl
    cases l with
    | nil => rfl
    | cons c t =>
      simp only [List.length_cons] at hl
      have hrl : replaceNl (c :: t) = (if c = '\n' then ' ' else c) :: replaceNl t := rfl
      by_cases hc : isWS c
      · have hcw : isWS (if c = '\n' then ' ' else c) = true := by
          by_cases hn : c = '\n'
          · rw [if_pos hn]; decide
          · rw [if_neg hn]; exact hc
        rw [hrl, wsplit_cons_of_ws hcw, wsplit_cons_of_ws hc]
        exact ih t (by omega)
      · have hn : ¬ c = '\n' := by
          intro h
          rw [h] at hc
          exact hc (by decide)
        have hc2 : isWS c = false := by simpa using hc
        rw [hrl, if_neg hn, wsplit_cons_of_not hc2, wsplit_cons_of_not hc2,
          takeWhile_replaceNl t, dropWhile_replaceNl t,
          ih (t.dropWhile notWS) (le_trans (lengthDropWhileLe notWS t) (by omega))]

/-- The word-list normal form distributes over append. -/
theorem fms_append (a b : List (List Char)) : fms (a ++ b) = fms a ++ fms b := by
  simp [fms, List.map_append, List.filter_append]

/-- Stripping trailing periods absorbs an appended period. -/
theorem stripDots_append_dot (w : List Char) : stripDots (w ++ ['.']) = stripDots w := by
  rw [stripDots, stripDots, show (w ++ ['.']).reverse = '.' :: w.reverse by simp,
    List.dropWhile_cons_of_pos (by decide)]

/-- The first element surviving dropWhile fails the predicate. -/
theorem dropWhile_head_false (p : Char → Bool) : ∀ (l : List Char) (y : Char) (v : List Char),
    l.dropWhile p = y :: v → p y = false := by
  intro l
  induction l with
  | nil => intro y v h; simp at h
  | cons c t ih =>
    intro y v h
    by_cases hc : p c
    · rw [List.dropWhile_cons_of_pos hc] at h
      exact ih y v h
    · rw [List.dropWhile_cons_of_neg hc] at h
      injection h with h1 h2
      subst h1
      simpa using hc

/-- A period appended to any string contributes nothing to the word normal
form: it either extends the trailing periods of the last word or forms a
pure-period word, which is dropped. -/
theorem normCore_append_dot : ∀ (n : Nat) (x : List Char), x.length ≤ n →
    normCore (x ++ ['.']) = normCore x := by
  intro n
  induction n with
  | zero =>
    intro x hx
    rw [List.length_eq_zero.1 (Nat.le_zero.1 hx)]
    rw [List.nil_append, show normCore ['.'] = fms (wsplit ['.']) from rfl,
      wsplit_single ['.'] (by simp) (by decide)]
    simp only [normCore]
    rw [show wsplit [] = [] from by simp [wsplit]]
    simp [fms, stripDots]
  | succ n ih =>
    intro x hx
    cases x with
    | nil =>
      rw [List.nil_append, show normCore ['.'] = fms (wsplit ['.']) from rfl,
        wsplit_single ['.'] (by simp) (by decide)]
      simp only [normCore]
      rw [show wsplit [] = [] from by simp [wsplit]]
      simp [fms, stripDots]
    | cons c x2 =>
      simp only [List.length_cons] at hx
      by_cases hc : isWS c
      · simp only [normCore, List.cons_append, wsplit_cons_of_ws hc]
        exact ih x2 (by omega)
      · have hc2 : isWS c = false := by simpa using hc
        simp only [normCore, List.cons_append, wsplit_cons_of_not hc2]
        cases hr : x2.dropWhile notWS with
        | nil =>
          have hall : ∀ a ∈ x2, notWS a = true := List.dropWhile_eq_nil_iff.1 hr
          have htw : x2.takeWhile notWS = x2 := List.takeWhile_eq_self_iff.2 hall
          have hall2 : ∀ a ∈ x2 ++ ['.'], notWS a = true := by
            intro a ha
            rcases List.mem_append.1 ha with h | h
            · exact hall a h
            · simp only [List.mem_singleton] at h
              subst h
              decide
          have htw2 : (x2 ++ ['.']).takeWhile notWS = x2 ++ ['.'] :=
            List.takeWhile_eq_self_iff.2 hall2
          have hdw2 : (x2 ++ ['.']).dropWhile notWS = [] :=
            List.dropWhile_eq_nil_iff.2 hall2
          rw [htw, htw2, hdw2, show wsplit [] = [] from by simp [wsplit]]
          have hsd : stripDots (c :: (x2 ++ ['.'])) = stripDots (c :: x2) := by
            rw [show (c :: (x2 ++ ['.'])) = (c :: x2) ++ ['.'] from rfl]
            exact stripDots_append_dot (c :: x2)
          simp [fms, hsd]
        | cons y v =>
          have hy : notWS y = false := dropWhile_head_false notWS x2 y v hr
          have hx2 : x2 = x2.takeWhile notWS ++ y :: v := by
            conv_lhs => rw [← List.takeWhile_append_dropWhile (p := notWS) (l := x2)]
            rw [hr]
          have htwA : (x2 ++ ['.']).takeWhile notWS = x2.takeWhile notWS := by
            conv_lhs => rw [hx2]
            rw [List.append_assoc, show (y :: v) ++ ['.'] = y :: (v ++ ['.']) from rfl,
              takeWhile_append_not notWS _ y _ hy,
              List.takeWhile_eq_self_iff.2 (fun a ha => List.mem_takeWhile_imp ha)]
          have hdwA : (x2 ++ ['.']).dropWhile notWS = y :: (v ++ ['.']) := by
            conv_lhs => rw [hx2]
            rw [List.append_assoc, show (y :: v) ++ ['.'] = y :: (v ++ ['.']) from rfl,
              dropWhile_append_not notWS _ y _ hy,
              List.dropWhile_eq_nil_iff.2 (fun a ha => List.mem_takeWhile_imp ha),
              List.nil_append]
          have hyws : isWS y = true := by
            revert hy
            rw [notWS]
            cases isWS y <;> simp
          have hvlen : v.length ≤ n := by
            have hlen : x2.length = (x2.takeWhile notWS).length + v.length + 1 := by
              conv_lhs => rw [hx2]
              simp [List.length_append]
              omega
            omega
          have hiv := ih v hvlen
          simp only [normCore] at hiv
          rw [htwA, hdwA, wsplit_cons_of_ws hyws, wsplit_cons_of_ws hyws]
          rw [show ((c :: x2.takeWhile notWS) :: wsplit (v ++ ['.']))
              = [c :: x2.takeWhile notWS] ++ wsplit (v ++ ['.']) from rfl,
            show ((c :: x2.takeWhile notWS) :: wsplit v)
              = [c :: x2.takeWhile notWS] ++ wsplit v from rfl,
            fms_append, fms_append, hiv]

/-- `splitDotSpace` always yields at least one piece. -/
theorem splitDotSpace_ne_nil : ∀ l : List Char, splitDotSpace l ≠ [] := by
  intro l
  induction l using splitDotSpace.induct with
  | case1 => simp [splitDotSpace]
  | case2 rest ih => simp [splitDotSpace]
  | case3 c rest h ih => simp [splitDotSpace]

/-- Prepending a character to the first piece commutes with the delimiter
join. -/
theorem jds_cons (c : Char) (p : List Char) (t : List (List Char)) :
    joinDotSpace ((c :: p) :: t) = c :: joinDotSpace (p :: t) := by
  cases t with
  | nil => rfl
  | cons q t2 => rfl

/-- Joining the ". "-split pieces with ". " recovers the original string. -/
theorem joinDotSpace_splitDotSpace : ∀ l : List Char,
    joinDotSpace (splitDotSpace l) = l := by
  intro l
  induction l using splitDotSpace.induct with
  | case1 => rfl
  | case2 rest ih =>
    rw [show splitDotSpace ('.' :: ' ' :: rest) = [] :: splitDotSpace rest from by
      simp [splitDotSpace]]
    obtain ⟨p, t, hs⟩ : ∃ p t, splitDotSpace rest = p :: t := by
      cases hq : splitDotSpace rest with
      | nil => exact absurd hq (splitDotSpace_ne_nil rest)
      | cons p t => exact ⟨p, t, rfl⟩
    rw [hs]
    show ([] : List Char) ++ '.' :: ' ' :: joinDotSpace (p :: t) = '.' :: ' ' :: rest
    rw [List.nil_append, ← hs, ih]
  | case3 c rest h ih =>
    rw [show splitDotSpace (c :: rest)
        = (c :: (splitDotSpace rest).headD []) :: (splitDotSpace rest).tail from by
      simp [splitDotSpace, h]]
    obtain ⟨p, t, hs⟩ : ∃ p t, splitDotSpace rest = p :: t := by
      cases hq : splitDotSpace rest with
      | nil => exact absurd hq (splitDotSpace_ne_nil rest)
      | cons p t => exact ⟨p, t, rfl⟩
    rw [hs]
    simp only [List.headD_cons, List.tail_cons]
    rw [jds_cons, ← hs, ih]

/-- The word normal form distributes over the delimiter join of pieces. -/
theorem normCore_joinDotSpace : ∀ ps : List (List Char),
    normCore (joinDotSpace ps) = (ps.map normCore).flatten := by
  intro ps
  induction ps with
  | nil =>
    show normCore [] = []
    simp only [normCore]
    rw [show wsplit [] = [] from by simp [wsplit]]
    rfl
  | cons p rest ih =>
    cases rest with
    | nil => simp [joinDotSpace]
    | cons q t =>
      have h1 : joinDotSpace (p :: q :: t) = (p ++ ['.']) ++ ' ' :: joinDotSpace (q :: t) := by
        show p ++ '.' :: ' ' :: joinDotSpace (q :: t) = _
        simp
      rw [h1]
      simp only [normCore]
      rw [wsplit_append_ws (p ++ ['.']).length _ le_rfl ' ' _ (by decide), fms_append,
        show fms (wsplit (p ++ ['.'])) = normCore (p ++ ['.']) from rfl,
        normCore_append_dot p.length p le_rfl,
        show fms (wsplit (joinDotSpace (q :: t))) = normCore (joinDotSpace (q :: t)) from rfl,
        ih]
      simp

/-- Unfolding of `pieceWords` at a piece. -/
theorem pieceWords_cons (p : List Char) (rest : List (List Char)) :
    pieceWords (p :: rest)
      = (if strip p = [] then [] else wsplit (strip p ++ ['.'])) ++ pieceWords rest := by
  simp [pieceWords]

/-- The per-piece preprocessing of the chunk loop preserves the word normal
form of each piece. -/
theorem fms_pieceWords : ∀ pieces : List (List Char),
    fms (pieceWords pieces) = (pieces.map normCore).flatten := by
  intro pieces
  induction pieces with
  | nil => rfl
  | cons p rest ih =>
    rw [pieceWords_cons, fms_append, ih, List.map_cons, List.flatten_cons]
    congr 1
    by_cases hp : strip p = []
    · rw [if_pos hp]
      have hw : wsplit p = [] := by
        rw [← wsplit_strip p, hp]
        simp [wsplit]
      simp [normCore, hw, fms]
    · rw [if_neg hp,
        show fms (wsplit (strip p ++ ['.'])) = normCore (strip p ++ ['.']) from rfl,
        normCore_append_dot (strip p).length _ le_rfl]
      simp only [normCore, wsplit_strip]

/-- Flattening the singleton splits of whitespace-free words recovers the
word list. -/
theorem flatten_map_single : ∀ l : List (List Char),
    (∀ w ∈ l, wsplit w = [w]) → (l.map wsplit).flatten = l := by
  intro l
  induction l with
  | nil => intro _; rfl
  | cons w rest ih =>
    intro h
    rw [List.map_cons, List.flatten_cons, h w (by simp),
      ih (fun x hx => h x (by simp [hx]))]
    rfl

/-- The word-level fallback loop re-emits exactly the pending and remaining
words, in order. -/
theorem wordLoop_words (tok : List Char → Nat) (B : Nat) :
    ∀ (ws wc : List (List Char)) (wct : Nat),
      (∀ w ∈ wc, w ≠ [] ∧ ∀ c ∈ w, notWS c = true) →
      (∀ w ∈ ws, w ≠ [] ∧ ∀ c ∈ w, notWS c = true) →
      ((wordLoop tok B ws wc wct).map wsplit).flatten = wc ++ ws := by
  intro ws
  induction ws with
  | nil =>
    intro wc wct hwc _
    by_cases h : wc = []
    · simp [wordLoop, h]
    · rw [wordLoop, if_neg h]
      simp only [List.map_cons, List.map_nil, List.flatten_cons, List.flatten_nil,
        List.append_nil]
      rw [wsplit_joinSpace,
        flatten_map_single wc (fun w hw => wsplit_single w (hwc w hw).1 (hwc w hw).2)]
  | cons w rest ih =>
    intro wc wct hwc hws
    rw [wordLoop]
    by_cases hov : B < wct + tok (w ++ [' '])
    · rw [if_pos hov, List.map_append, List.flatten_append]
      rw [ih [w] (tok (w ++ [' ']))
        (fun x hx => by
          simp only [List.mem_singleton] at hx
          subst hx
          exact hws x (by simp))
        (fun x hx => hws x (by simp [hx]))]
      by_cases h : wc = []
      · simp [h]
      · rw [if_neg h]
        simp only [List.map_cons, List.map_nil, List.flatten_cons, List.flatten_nil,
          List.append_nil]
        rw [wsplit_joinSpace,
          flatten_map_single wc (fun x hx => wsplit_single x (hwc x hx).1 (hwc x hx).2)]
        simp
    · rw [if_neg hov]
      rw [ih (wc ++ [w]) (wct + tok (w ++ [' ']))
        (fun x hx => by
          rcases List.mem_append.1 hx with h2 | h2
          · exact hwc x h2
          · simp only [List.mem_singleton] at h2
            subst h2
            exact hws x (by simp))
        (fun x hx => hws x (by simp [hx]))]
      simp

/-- Words of the flushed pending chunk. -/
theorem flush_words (current : List (List Char)) :
    (((if current = [] then [] else [(joinSpace current, false)]).map
        (fun cb : List Char × Bool => wsplit cb.1)).flatten)
      = (current.map wsplit).flatten := by
  by_cases hc : current = []
  · simp [hc]
  · rw [if_neg hc]
    simp only [List.map_cons, List.map_nil, List.flatten_cons, List.flatten_nil,
      List.append_nil]
    exact wsplit_joinSpace current

/-- The sentence loop preserves, in order, the words of the pending
sentences followed by the words contributed by the remaining pieces. -/
theorem chunkLoop_words (tok : List Char → Nat) (B : Nat) :
    ∀ (pieces current : List (List Char)) (curTok : Nat),
      ((chunkLoop tok B pieces current curTok).map
          (fun cb : List Char × Bool => wsplit cb.1)).flatten
        = (current.map wsplit).flatten ++ pieceWords pieces := by
  intro pieces
  induction pieces with
  | nil =>
    intro current curTok
    rw [chunkLoop, flush_words]
    simp [pieceWords]
  | cons p rest ih =>
    intro current curTok
    by_cases hp : strip p = []
    · rw [chunkLoop, if_pos hp, ih, pieceWords_cons, if_pos hp]
      simp
    · by_cases hover : B < tok (strip p ++ ['.'])
      · rw [chunkLoop, if_neg hp, if_pos hover,
          List.map_append, List.map_append, List.flatten_append, List.flatten_append,
          flush_words, ih [] 0]
        have hwords : (((wordLoop tok B (wsplit (strip p ++ ['.'])) [] 0).map
            (fun c => (c, true))).map (fun cb : List Char × Bool => wsplit cb.1)).flatten
            = wsplit (strip p ++ ['.']) := by
          rw [List.map_map,
            show ((fun cb : List Char × Bool => wsplit cb.1) ∘ fun c => (c, true))
              = wsplit from rfl,
            wordLoop_words tok B _ [] 0 (by simp)
              (fun x hx => wsplit_mem (strip p ++ ['.']).length _ le_rfl x hx)]
          rfl
        rw [hwords, pieceWords_cons, if_neg hp]
        simp
      · by_cases hflush : B < curTok + tok (strip p ++ ['.']) ∧ current ≠ []
        · rw [chunkLoop, if_neg hp, if_neg hover, if_pos hflush,
            List.map_cons, List.flatten_cons, ih [strip p ++ ['.']] (tok (strip p ++ ['.'])),
            wsplit_joinSpace, pieceWords_cons, if_neg hp]
          simp
        · rw [chunkLoop, if_neg hp, if_neg hover, if_neg hflush,
            ih (current ++ [strip p ++ ['.']]) (curTok + tok (strip p ++ ['.'])),
            pieceWords_cons, if_neg hp]
          simp

/-- The word normal form of a text does not depend on the newline
normalisation pass. -/
theorem normWords_eq_normCore (s : List Char) : normWords s = normCore s := by
  rw [normWords]
  simp only [normCore]
  rw [wsplit_replaceNl s.length s le_rfl]

/-- Claim C3: concatenating (with single-space separators, i.e. modulo
whitespace normalisation) the chunks returned by `split_text_into_chunks`
reconstructs the original text content word for word, modulo the reinserted
". " sentence delimiter: the whitespace-separated words, each stripped of
its trailing delimiter periods, are exactly those of the input text — no
text content is lost or invented, for every tokenizer and every bound. -/
theorem split_chunks_reconstruct (tok : List Char → Nat) (text : List Char) (B : Nat) :
    normWords (joinSpace (splitTextIntoChunks tok text B)) = normWords text := by
  by_cases ht : text = []
  · subst ht
    rw [splitTextIntoChunks, splitTextIntoChunksTagged, if_pos rfl]
    rfl
  · rw [splitTextIntoChunks, splitTextIntoChunksTagged, if_neg ht]
    calc normWords (joinSpace ((chunkLoop tok B (splitDotSpace (replaceNl text)) [] 0).map
          Prod.fst))
        = fms ((((chunkLoop tok B (splitDotSpace (replaceNl text)) [] 0).map
            Prod.fst).map wsplit).flatten) := by
          rw [normWords_eq_normCore]
          simp only [normCore]
          rw [wsplit_joinSpace]
      _ = fms (((chunkLoop tok B (splitDotSpace (replaceNl text)) [] 0).map
            (fun cb : List Char × Bool => wsplit cb.1)).flatten) := by
          rw [List.map_map]
          rfl
      _ = fms (pieceWords (splitDotSpace (replaceNl text))) := by
          rw [chunkLoop_words]
          simp
      _ = ((splitDotSpace (replaceNl text)).map normCore).flatten :=
          fms_pieceWords (splitDotSpace (replaceNl text))
      _ = normCore (joinDotSpace (splitDotSpace (replaceNl text))) :=
          (normCore_joinDotSpace (splitDotSpace (replaceNl text))).symm
      _ = normCore (replaceNl text) := by rw [joinDotSpace_splitDotSpace]
      _ = normWords text := rfl

end Hilan
